import Mathlib

/-!
Verification of the arena64 slab allocators (Fixed64, Boxed64, Arena64).

The Rust sources are shallowly embedded: the 64-bit occupancy word is a
`Nat` together with explicit reduction mod `2 ^ 64` wherever the machine
arithmetic wraps; bitwise machine operations (`!`, `&`, `|`, `^`, `<<`)
become `Nat.xor`-with-all-ones, `Nat.land`, `Nat.lor`, `Nat.xor` and
`Nat.shiftLeft`; fallible acquisition returns `Option`; the handle
lifecycles of `Fixed64` and `Boxed64` become explicit transition systems.
-/

/-- The modulus of `u64` arithmetic: wrapping addition works mod `2 ^ 64`. -/
def U64_MOD : Nat := 2 ^ 64

/-- `u64::MAX`, the all-ones occupancy word. -/
def ALL_ONES : Nat := 2 ^ 64 - 1

/-- Source constant `IDX: usize = (1 << 6) - 1`, the low-bit index tag. -/
def IDX : Nat := (1 <<< 6) - 1

/-- Source constant `IDX_MASK: usize = !IDX` (64-bit complement of `IDX`). -/
def IDX_MASK : Nat := IDX ^^^ ALL_ONES

/-- 64-bit bitwise complement `!m`, embedded as xor with the all-ones word. -/
def not64 (m : Nat) : Nat := m ^^^ ALL_ONES

/-- The word `1 << i` used for per-cell occupancy bits. -/
def bitMask (i : Nat) : Nat := 1 <<< i

/-- Source expression `!occupancy & occupancy.wrapping_add(1)` from the
acquire loops of `Fixed64::get_uninit_slot`, `Inner::get_uninit_slot` and
`Arena64::insert`: isolates the lowest clear bit of the occupancy word. -/
def least_significant_bit (m : Nat) : Nat :=
  not64 m &&& ((m + 1) % U64_MOD)

/-- Bounded-fuel helper computing the number of trailing zero bits. -/
def tzGo : Nat → Nat → Nat
  | _, 0 => 0
  | n, fuel + 1 => if n % 2 = 1 then 0 else tzGo (n / 2) fuel + 1

/-- `u64::trailing_zeros`: 64 on zero, else the index of the lowest set bit. -/
def trailing_zeros (n : Nat) : Nat := if n = 0 then 64 else tzGo n 64

/-- The new occupancy word after `fetch_and(!(1 << i))`, the plain release
used by `Fixed64`/`Arena64` slot drops and takes. -/
def clear_bit (occ i : Nat) : Nat := occ &&& not64 (bitMask i)

/- ## Basic bit lemmas -/

theorem U64_MOD_pos : 0 < U64_MOD := Nat.pos_pow_of_pos 64 (by decide)

theorem ALL_ONES_add_one : ALL_ONES + 1 = U64_MOD :=
  Nat.sub_add_cancel (Nat.one_le_two_pow)

theorem testBit_ALL_ONES (j : Nat) : ALL_ONES.testBit j = decide (j < 64) :=
  Nat.testBit_two_pow_sub_one 64 j

theorem testBit_not64 (m j : Nat) :
    (not64 m).testBit j = ((m.testBit j).xor (decide (j < 64))) := by
  simp [not64, Nat.testBit_xor, testBit_ALL_ONES]

theorem bitMask_eq (i : Nat) : bitMask i = 2 ^ i := by
  simp [bitMask, Nat.shiftLeft_eq]

theorem bitMask_lt (i : Nat) (hi : i < 64) : bitMask i < U64_MOD := by
  rw [bitMask_eq]
  exact Nat.pow_lt_pow_right (by decide) hi

theorem ALL_ONES_lt : ALL_ONES < U64_MOD := by
  rw [ALL_ONES, U64_MOD]
  exact Nat.sub_lt (Nat.pos_pow_of_pos _ (by decide)) (by decide)

theorem not64_lt (m : Nat) (hm : m < U64_MOD) : not64 m < U64_MOD :=
  Nat.xor_lt_two_pow hm ALL_ONES_lt

theorem testBit_high_false {m j : Nat} (hm : m < U64_MOD) (hj : 64 ≤ j) :
    m.testBit j = false := by
  apply Nat.testBit_lt_two_pow
  calc m < U64_MOD := hm
    _ ≤ 2 ^ j := Nat.pow_le_pow_right (by decide) hj

/-- Bits of a word below its least clear bit are the bits of `2 ^ i - 1`. -/
theorem mod_two_pow_of_low_set {m i : Nat} (hbit : m.testBit i = false)
    (hlow : ∀ j, j < i → m.testBit j = true) :
    m % 2 ^ (i + 1) = 2 ^ i - 1 := by
  apply Nat.eq_of_testBit_eq
  intro j
  rw [Nat.testBit_mod_two_pow, Nat.testBit_two_pow_sub_one]
  rcases Nat.lt_trichotomy j i with hj | hj | hj
  · simp [hlow j hj, Nat.lt_succ_of_lt hj, hj]
  · subst hj; simp [hbit]
  · have h1 : ¬ (j < i + 1) := by omega
    have h2 : ¬ (j < i) := by omega
    simp [h1, h2]

/-- Adding one to a word whose bits below `i` are set and whose bit `i` is
clear: bits below `i` become clear, bit `i` becomes set, higher bits keep. -/
theorem testBit_add_one_of_low_set {m i : Nat} (hbit : m.testBit i = false)
    (hlow : ∀ j, j < i → m.testBit j = true) (j : Nat) :
    (m + 1).testBit j =
      (if j < i then false else if j = i then true else m.testBit j) := by
  have hmod := mod_two_pow_of_low_set hbit hlow
  have hdecomp := Nat.div_add_mod m (2 ^ (i + 1))
  set a := m / 2 ^ (i + 1) with ha
  have hm1 : m + 1 = 2 ^ (i + 1) * a + 2 ^ i := by
    have hpos : 0 < 2 ^ i := Nat.pos_pow_of_pos i (by decide)
    omega
  rcases Nat.lt_trichotomy j i with hj | hj | hj
  · -- below the least clear bit: the carry clears the bit
    have hjlt : j < i + 1 := by omega
    have : (m + 1).testBit j = ((m + 1) % 2 ^ (i + 1)).testBit j := by
      rw [Nat.testBit_mod_two_pow]; simp [hjlt]
    rw [this, hm1, Nat.mul_add_mod]
    have hlt : 2 ^ i < 2 ^ (i + 1) := Nat.pow_lt_pow_right (by decide) (by omega)
    rw [Nat.mod_eq_of_lt hlt, Nat.testBit_two_pow_of_ne (by omega)]
    simp [hj]
  · -- the least clear bit itself: the carry lands here
    subst hj
    have hjlt : j < j + 1 := by omega
    have : (m + 1).testBit j = ((m + 1) % 2 ^ (j + 1)).testBit j := by
      rw [Nat.testBit_mod_two_pow]; simp
    rw [this, hm1, Nat.mul_add_mod]
    have hlt : 2 ^ j < 2 ^ (j + 1) := Nat.pow_lt_pow_right (by decide) (by omega)
    rw [Nat.mod_eq_of_lt hlt, Nat.testBit_two_pow_self]
    simp
  · -- above the least clear bit: no further carries
    have h1 : ¬ (j < i) := by omega
    have h2 : j ≠ i := by omega
    simp only [h1, h2, if_false]
    have hj' : j = (i + 1) + (j - (i + 1)) := by omega
    have hdiv1 : (m + 1) / 2 ^ (i + 1) = a := by
      rw [hm1, Nat.mul_add_div (Nat.pos_pow_of_pos _ (by decide))]
      have : 2 ^ i / 2 ^ (i + 1) = 0 :=
        Nat.div_eq_of_lt (Nat.pow_lt_pow_right (by decide) (by omega))
      omega
    calc (m + 1).testBit j
        = ((m + 1) >>> (i + 1)).testBit (j - (i + 1)) := by
          rw [Nat.testBit_shiftRight, ← hj']
      _ = a.testBit (j - (i + 1)) := by
          rw [Nat.shiftRight_eq_div_pow, hdiv1]
      _ = (m >>> (i + 1)).testBit (j - (i + 1)) := by
          rw [Nat.shiftRight_eq_div_pow, ha]
      _ = m.testBit j := by rw [Nat.testBit_shiftRight, ← hj']

/-- The `(~m) & (m+1)` trick isolates `2 ^ i` when `i` is the least clear
bit of `m`. -/
theorem lsb_eq_pow {m i : Nat} (hm : m < U64_MOD) (hi : i < 64)
    (hbit : m.testBit i = false) (hlow : ∀ j, j < i → m.testBit j = true) :
    least_significant_bit m = 2 ^ i := by
  have hne : m ≠ ALL_ONES := by
    intro h
    rw [h, testBit_ALL_ONES] at hbit
    simp [hi] at hbit
  have hm1 : m + 1 < U64_MOD := by
    have h1 := ALL_ONES_add_one
    rcases Nat.lt_or_ge m ALL_ONES with h | h
    · omega
    · exact absurd (by omega : m = ALL_ONES) hne
  unfold least_significant_bit
  rw [Nat.mod_eq_of_lt hm1]
  apply Nat.eq_of_testBit_eq
  intro j
  rw [Nat.testBit_land, testBit_not64,
    testBit_add_one_of_low_set hbit hlow]
  rcases Nat.lt_trichotomy j i with hj | hj | hj
  · simp [hlow j hj, hj, Nat.testBit_two_pow_of_ne (by omega : i ≠ j)]
  · subst hj
    simp [hbit, hi, Nat.testBit_two_pow_self]
  · have h1 : ¬ (j < i) := by omega
    have h2 : j ≠ i := by omega
    rcases Nat.lt_or_ge j 64 with hj64 | hj64
    · simp [h1, h2, hj64, Nat.testBit_two_pow_of_ne (by omega : i ≠ j)]
    · have hmj : m.testBit j = false := testBit_high_false hm hj64
      have hnj : ¬ (j < 64) := by omega
      simp [h1, h2, hmj, Nat.testBit_two_pow_of_ne (by omega : i ≠ j), hnj]

/-- A word below `2 ^ 64` other than all-ones has a least clear bit
among the low 64. -/
theorem exists_least_clear {m : Nat} (hm : m < U64_MOD)
    (hne : m ≠ ALL_ONES) :
    ∃ i, i < 64 ∧ m.testBit i = false ∧ ∀ j, j < i → m.testBit j = true := by
  have hex : ∃ j, m.testBit j = false :=
    ⟨64, testBit_high_false hm (Nat.le_refl 64)⟩
  have hlow : ∃ j, j < 64 ∧ m.testBit j = false := by
    by_contra hcon
    push_neg at hcon
    apply hne
    apply Nat.eq_of_testBit_eq
    intro j
    rw [testBit_ALL_ONES]
    rcases Nat.lt_or_ge j 64 with hj | hj
    · rw [decide_eq_true hj]
      cases h : m.testBit j with
      | false => exact absurd h (hcon j hj)
      | true => rfl
    · have hnj : ¬ (j < 64) := by omega
      rw [testBit_high_false hm hj]
      simp [hnj]
  obtain ⟨j0, hj0, hj0bit⟩ := hlow
  refine ⟨Nat.find hex, ?_, Nat.find_spec hex, ?_⟩
  · exact Nat.lt_of_le_of_lt (Nat.find_min' hex hj0bit) hj0
  · intro j hj
    have h2 := Nat.find_min hex hj
    cases h : m.testBit j with
    | false => exact absurd h h2
    | true => rfl

theorem lsb_all_ones : least_significant_bit ALL_ONES = 0 := by
  unfold least_significant_bit
  rw [ALL_ONES_add_one, Nat.mod_self, Nat.and_zero]

/-- `(~m) & (m+1)` is zero exactly on the all-ones word. -/
theorem lsb_eq_zero_iff {m : Nat} (hm : m < U64_MOD) :
    least_significant_bit m = 0 ↔ m = ALL_ONES := by
  constructor
  · intro h
    by_contra hne
    obtain ⟨i, hi, hbit, hlow⟩ := exists_least_clear hm hne
    rw [lsb_eq_pow hm hi hbit hlow] at h
    exact absurd h (Nat.pos_iff_ne_zero.mp (Nat.pos_pow_of_pos i (by decide)))
  · intro h; rw [h]; exact lsb_all_ones

theorem tzGo_two_pow {fuel i : Nat} (h : i < fuel) : tzGo (2 ^ i) fuel = i := by
  induction fuel generalizing i with
  | zero => omega
  | succ f ih =>
    cases i with
    | zero => simp [tzGo]
    | succ k =>
      have heven : 2 ^ (k + 1) % 2 = 0 := by
        rw [Nat.pow_succ, Nat.mul_mod_left]
      have hdiv : 2 ^ (k + 1) / 2 = 2 ^ k := by
        rw [Nat.pow_succ]; omega
      simp only [tzGo, heven]
      rw [if_neg (by omega), hdiv, ih (by omega)]

theorem tz_two_pow {i : Nat} (hi : i < 64) : trailing_zeros (2 ^ i) = i := by
  unfold trailing_zeros
  rw [if_neg (Nat.pos_iff_ne_zero.mp (Nat.pos_pow_of_pos i (by decide)))]
  exact tzGo_two_pow hi

/-- Bits of the word after a plain release `occ & !(1 << i)`. -/
theorem testBit_clear_bit {occ : Nat} (i j : Nat) (hocc : occ < U64_MOD) :
    (clear_bit occ i).testBit j = (occ.testBit j && ! decide (j = i)) := by
  unfold clear_bit
  rw [Nat.testBit_land, testBit_not64, bitMask_eq]
  rcases Nat.lt_or_ge j 64 with hj | hj
  · rw [decide_eq_true hj]
    rcases Decidable.em (j = i) with h | h
    · subst h; simp [Nat.testBit_two_pow_self]
    · simp [Nat.testBit_two_pow_of_ne (by omega : i ≠ j), h]
  · rw [testBit_high_false hocc hj]
    simp

theorem clear_bit_lt {occ i : Nat} (hocc : occ < U64_MOD) :
    clear_bit occ i < U64_MOD :=
  Nat.lt_of_le_of_lt Nat.and_le_left hocc

/-- Bits of the word after `fetch_or` with the isolated bit `2 ^ i`. -/
theorem testBit_lor_pow (occ i j : Nat) :
    (occ ||| 2 ^ i).testBit j = (occ.testBit j || decide (j = i)) := by
  rw [Nat.testBit_or]
  rcases Decidable.em (j = i) with h | h
  · subst h; simp [Nat.testBit_two_pow_self]
  · simp [Nat.testBit_two_pow_of_ne (by omega : i ≠ j), h]

theorem lor_pow_lt {occ i : Nat} (hocc : occ < U64_MOD) (hi : i < 64) :
    occ ||| 2 ^ i < U64_MOD :=
  Nat.or_lt_two_pow hocc (Nat.pow_lt_pow_right (by decide) hi)

/-- The attempted bit is clear in the word it was derived from, so the
single-threaded `fetch_or` always wins: `prev & candidate == 0`. -/
theorem land_lsb_self {m : Nat} (hm : m < U64_MOD) :
    m &&& least_significant_bit m = 0 := by
  rcases Decidable.em (m = ALL_ONES) with h | h
  · rw [h, lsb_all_ones, Nat.and_zero]
  · obtain ⟨i, hi, hbit, hlow⟩ := exists_least_clear hm h
    rw [lsb_eq_pow hm hi hbit hlow]
    apply Nat.eq_of_testBit_eq
    intro j
    rw [Nat.testBit_land]
    rcases Decidable.em (j = i) with hj | hj
    · subst hj; simp [hbit]
    · simp [Nat.testBit_two_pow_of_ne (by omega : i ≠ j)]

/- ## Single-threaded acquisition

`Fixed64::get_uninit_slot` / `Inner::get_uninit_slot` (heapless.rs lines
42-66, boxed.rs lines 26-50): load the occupancy word, isolate the lowest
clear bit, and `fetch_or` it in.  Without interference the `fetch_or`
returns the word that was loaded, so `prev & candidate == 0` holds on the
first pass (theorem `land_lsb_self`) and the loop exits immediately; the
embedding below is that single successful pass.  A zero candidate means
the slab is saturated and the call returns `None`. -/

/-- Single-threaded `get_uninit_slot` on an occupancy word: `some` of the
reserved index and the updated occupancy word, or `none` when saturated. -/
def get_uninit_idx (occ : Nat) : Option (Nat × Nat) :=
  let l := least_significant_bit occ
  if l = 0 then none else some (trailing_zeros l, occ ||| l)

/-- Acquisition reserves the least clear bit `i` of the occupancy word. -/
theorem get_uninit_idx_spec {occ i : Nat} (hocc : occ < U64_MOD)
    (hi : i < 64) (hbit : occ.testBit i = false)
    (hlow : ∀ j, j < i → occ.testBit j = true) :
    get_uninit_idx occ = some (i, occ ||| 2 ^ i) := by
  unfold get_uninit_idx
  rw [lsb_eq_pow hocc hi hbit hlow]
  rw [if_neg (Nat.pos_iff_ne_zero.mp (Nat.pos_pow_of_pos i (by decide)))]
  rw [tz_two_pow hi]

theorem get_uninit_idx_saturated : get_uninit_idx ALL_ONES = none := by
  unfold get_uninit_idx
  rw [lsb_all_ones]
  simp

/-- `2 ^ k - 1` (the occupancy after `k` in-order acquisitions) yields
index `k` next. -/
theorem get_uninit_idx_pow_sub_one {k : Nat} (hk : k < 64) :
    get_uninit_idx (2 ^ k - 1) = some (k, 2 ^ (k + 1) - 1) := by
  have hlt : (2 : Nat) ^ k - 1 < U64_MOD := by
    have h1 : (2 : Nat) ^ k ≤ 2 ^ 64 := Nat.pow_le_pow_right (by decide) (by omega)
    have h2 := U64_MOD_pos
    unfold U64_MOD at *
    omega
  have hbit : (2 ^ k - 1).testBit k = false := by
    rw [Nat.testBit_two_pow_sub_one]; simp
  have hlow : ∀ j, j < k → (2 ^ k - 1).testBit j = true := by
    intro j hj
    rw [Nat.testBit_two_pow_sub_one]
    exact decide_eq_true hj
  rw [get_uninit_idx_spec hlt hk hbit hlow]
  have : (2 ^ k - 1) ||| 2 ^ k = 2 ^ (k + 1) - 1 := by
    apply Nat.eq_of_testBit_eq
    intro j
    rw [testBit_lor_pow, Nat.testBit_two_pow_sub_one, Nat.testBit_two_pow_sub_one]
    rcases Nat.lt_trichotomy j k with hj | hj | hj
    · have h1 : j < k + 1 := by omega
      simp [hj, h1]
    · subst hj; simp
    · have h1 : ¬ (j < k) := by omega
      have h2 : ¬ (j < k + 1) := by omega
      have h3 : j ≠ k := by omega
      simp [h1, h2, h3]
  rw [this]

/- ## C8: the lowest-clear-bit identity -/

/-- C8: for every 64-bit word `m`, the source expression
`!m & m.wrapping_add(1)` is zero iff `m` is all ones, and otherwise is a
power of two `2 ^ i` whose `trailing_zeros` is the smallest index `i`
such that bit `i` of `m` is clear. -/
theorem c8_lowest_clear_bit (m : Nat) (hm : m < U64_MOD) :
    (least_significant_bit m = 0 ↔ m = ALL_ONES) ∧
    (m ≠ ALL_ONES →
      ∃ i, i < 64 ∧ least_significant_bit m = 2 ^ i ∧
        trailing_zeros (least_significant_bit m) = i ∧
        m.testBit i = false ∧ ∀ j, j < i → m.testBit j = true) := by
  refine ⟨lsb_eq_zero_iff hm, ?_⟩
  intro hne
  obtain ⟨i, hi, hbit, hlow⟩ := exists_least_clear hm hne
  refine ⟨i, hi, lsb_eq_pow hm hi hbit hlow, ?_, hbit, hlow⟩
  rw [lsb_eq_pow hm hi hbit hlow]
  exact tz_two_pow hi

/-- Witness for C8 at the concrete word `m = 5 = 0b101`: the isolated bit
is `2 = 2 ^ 1` and its trailing-zero count is the least clear index 1. -/
theorem c8_lowest_clear_bit_witness :
    (least_significant_bit 5 = 0 ↔ (5 : Nat) = ALL_ONES) ∧
    ((5 : Nat) ≠ ALL_ONES →
      ∃ i, i < 64 ∧ least_significant_bit 5 = 2 ^ i ∧
        trailing_zeros (least_significant_bit 5) = i ∧
        Nat.testBit 5 i = false ∧ ∀ j, j < i → Nat.testBit 5 j = true) :=
  c8_lowest_clear_bit 5 (by decide)

/- ## C10: single-threaded acquisition takes the lowest free index -/

/-- Releasing the bit acquired on top of `occ` restores `occ`. -/
theorem clear_bit_lor {occ i : Nat} (hocc : occ < U64_MOD) (hi : i < 64)
    (hbit : occ.testBit i = false) :
    clear_bit (occ ||| 2 ^ i) i = occ := by
  have hlt := lor_pow_lt hocc hi
  apply Nat.eq_of_testBit_eq
  intro j
  rw [testBit_clear_bit i j hlt, testBit_lor_pow]
  rcases Decidable.em (j = i) with h | h
  · subst h; simp [hbit]
  · simp [h]

/-- C10: in the absence of concurrent acquirers an acquisition reserves
the lowest-indexed unoccupied cell: whenever `i` is clear and every index
below `i` is occupied, `get_uninit_idx` returns `i` (so a fresh slab hands
out 0, 1, 2, … in order); and after `i` is released from the resulting
word the next acquisition returns `i` again. -/
theorem c10_lowest_free_index (occ i : Nat) (hocc : occ < U64_MOD)
    (hi : i < 64) (hbit : occ.testBit i = false)
    (hlow : ∀ j, j < i → occ.testBit j = true) :
    get_uninit_idx occ = some (i, occ ||| 2 ^ i) ∧
    clear_bit (occ ||| 2 ^ i) i = occ := by
  exact ⟨get_uninit_idx_spec hocc hi hbit hlow, clear_bit_lor hocc hi hbit⟩

/-- Witness for C10 at `occ = 7 = 0b111`, whose lowest clear bit is 3:
acquisition returns index 3 and word 15, and releasing 3 goes back to 7. -/
theorem c10_lowest_free_index_witness :
    get_uninit_idx 7 = some (3, 7 ||| 2 ^ 3) ∧
    clear_bit (7 ||| 2 ^ 3) 3 = 7 :=
  c10_lowest_free_index 7 3 (by decide) (by decide) (by decide)
    (by intro j hj; interval_cases j <;> decide)

/- ## C5: the Fixed64 capacity law -/

/-- A sequence of `k` consecutive `get_uninit_slot` calls threading the
occupancy word, collecting each call's result (`none` on saturation). -/
def acquire_seq : Nat → Nat → List (Option Nat) × Nat
  | occ, 0 => ([], occ)
  | occ, k + 1 =>
    match get_uninit_idx occ with
    | none => ((none : Option Nat) :: (acquire_seq occ k).1, (acquire_seq occ k).2)
    | some (i, occ') => (some i :: (acquire_seq occ' k).1, (acquire_seq occ' k).2)

theorem acquire_seq_in_order {s k : Nat} (h : s + k ≤ 64) :
    acquire_seq (2 ^ s - 1) k = ((List.range' s k).map some, 2 ^ (s + k) - 1) := by
  induction k generalizing s with
  | zero => simp [acquire_seq]
  | succ n ih =>
    have hs : s < 64 := by omega
    have hstep := get_uninit_idx_pow_sub_one hs
    have hrec := ih (s := s + 1) (by omega)
    have hexp : s + 1 + n = s + (n + 1) := by omega
    simp only [acquire_seq, hstep, hrec, List.range'_succ, List.map_cons, hexp]

/-- C5: from a fresh `Fixed64`, 64 consecutive `get_uninit_slot` calls all
succeed with the 64 distinct indices `0, …, 63`; the 65th call (on the
saturated word) returns `None`; and after releasing any one outstanding
index `i` the next call succeeds again (returning that same index). -/
theorem c5_fixed64_capacity :
    acquire_seq 0 64 = ((List.range 64).map some, ALL_ONES) ∧
    (List.range 64).Nodup ∧
    get_uninit_idx ALL_ONES = none ∧
    (∀ i : Fin 64, get_uninit_idx (clear_bit ALL_ONES i.val) =
      some (i.val, ALL_ONES)) := by
  refine ⟨?_, List.nodup_range 64, get_uninit_idx_saturated, ?_⟩
  · have h := acquire_seq_in_order (s := 0) (k := 64) (by omega)
    simpa [List.range_eq_range', ALL_ONES] using h
  · intro i
    have hoc : clear_bit ALL_ONES i.val < U64_MOD :=
      clear_bit_lt ALL_ONES_lt
    have hbit : (clear_bit ALL_ONES i.val).testBit i.val = false := by
      rw [testBit_clear_bit i.val i.val ALL_ONES_lt]
      simp
    have hlow : ∀ j, j < i.val → (clear_bit ALL_ONES i.val).testBit j = true := by
      intro j hj
      rw [testBit_clear_bit i.val j ALL_ONES_lt, testBit_ALL_ONES]
      have hj64 : j < 64 := by omega
      have hne : ¬ (j = i.val) := by omega
      simp [hj64, hne]
    rw [get_uninit_idx_spec hoc i.isLt hbit hlow]
    have : clear_bit ALL_ONES i.val ||| 2 ^ i.val = ALL_ONES := by
      apply Nat.eq_of_testBit_eq
      intro j
      rw [testBit_lor_pow, testBit_clear_bit i.val j ALL_ONES_lt, testBit_ALL_ONES]
      rcases Decidable.em (j = i.val) with h | h
      · subst h; simp [i.isLt]
      · simp [h]
    rw [this]

/- ## Slab state and the tagged-pointer round trip -/

/-- One 64-cell slab: the occupancy word and the cells, `some v` for a
cell holding an initialized `T` and `none` for raw (uninitialized)
storage. -/
structure Slab64 (T : Type) where
  occupancy : Nat
  slots : Fin 64 → Option T

/-- `Slot::into_raw` pointer arithmetic: `slab_address | idx`
(`map_addr(|addr| addr | slot.idx)` over the 64-byte-aligned slab
address). -/
def slot_into_raw (addr idx : Nat) : Nat := addr ||| idx

/-- `Slot::from_raw` pointer arithmetic: the slab address is
`ptr & IDX_MASK` and the index is `ptr & IDX`. -/
def slot_from_raw (p : Nat) : Nat × Nat := (p &&& IDX_MASK, p &&& IDX)

/-- `Slot::drop` (heapless.rs lines 190-197, and identically lib.rs lines
160-167, arena.rs lines 149-159): `assume_init_drop` runs the contained
value's destructor (leaving the cell raw), then `fetch_and(!(1 << idx))`
releases the bit.  Returns the updated slab and the list of values whose
destructor ran. -/
def slot_drop_op {T : Type} (st : Slab64 T) (i : Fin 64) :
    Slab64 T × List T :=
  (⟨clear_bit st.occupancy i.val, fun j => if j = i then none else st.slots j⟩,
   (st.slots i).toList)

/-- `Slot::into_raw` as staged in lib.rs lines 131-141: both `cfg`
variants take `self` by value and compute the tagged pointer with no
`ManuallyDrop` and no `forget`, so when the body ends `self` is dropped
through the `Drop` impl at lib.rs lines 160-167 — after the pointer is
computed, the contained value is destructed and the occupancy bit is
cleared. -/
def into_raw_op {T : Type} (st : Slab64 T) (addr : Nat) (i : Fin 64) :
    Nat × Slab64 T × List T :=
  (slot_into_raw addr i.val, slot_drop_op st i)

/-- `Slot::into_raw` as staged in heapless.rs lines 143-148, arena.rs
lines 127-130 and boxed.rs lines 201-205: `ManuallyDrop::new(self)`
suppresses the handle's drop, so no destructor runs, no atomic release
happens, and the only computation is the tagged-pointer arithmetic. -/
def into_raw_keep_op {T : Type} (st : Slab64 T) (addr idx : Nat) :
    Nat × Slab64 T × List T :=
  (slot_into_raw addr idx, st, [])

/-- Dereferencing a reconstructed slot: read cell `idx` of the slab at
`addr` in an address-indexed heap of slabs. -/
def slot_deref {T : Type} (heap : Nat → Slab64 T) (addr idx : Nat) :
    Option T :=
  if h : idx < 64 then (heap addr).slots ⟨idx, h⟩ else none

theorem IDX_eq : IDX = 2 ^ 6 - 1 := by decide

theorem testBit_IDX (j : Nat) : IDX.testBit j = decide (j < 6) := by
  rw [IDX_eq]
  exact Nat.testBit_two_pow_sub_one 6 j

theorem testBit_IDX_MASK (j : Nat) :
    IDX_MASK.testBit j = (decide (6 ≤ j) && decide (j < 64)) := by
  unfold IDX_MASK
  rw [Nat.testBit_xor, testBit_IDX, testBit_ALL_ONES]
  rcases Nat.lt_or_ge j 6 with h | h
  · have h64 : j < 64 := by omega
    have hn : ¬ (6 ≤ j) := by omega
    simp [h, h64, hn]
  · have hn : ¬ (j < 6) := by omega
    simp [hn, h]

/-- A 64-byte-aligned address has its low 6 bits clear. -/
theorem testBit_low_of_aligned {addr j : Nat} (halign : addr % 64 = 0)
    (hj : j < 6) : addr.testBit j = false := by
  interval_cases j <;>
    simp only [Nat.testBit_to_div_mod, decide_eq_false_iff_not] <;> omega

/-- Masking the tagged pointer with `IDX` recovers the index. -/
theorem tagged_land_IDX {addr idx : Nat} (halign : addr % 64 = 0)
    (hidx : idx < 64) : (addr ||| idx) &&& IDX = idx := by
  apply Nat.eq_of_testBit_eq
  intro j
  rw [Nat.testBit_land, Nat.testBit_or, testBit_IDX]
  rcases Nat.lt_or_ge j 6 with hj | hj
  · simp [testBit_low_of_aligned halign hj, hj]
  · have hidxbit : idx.testBit j = false := by
      apply Nat.testBit_lt_two_pow
      calc idx < 64 := hidx
        _ = 2 ^ 6 := by decide
        _ ≤ 2 ^ j := Nat.pow_le_pow_right (by decide) hj
    have hn : ¬ (j < 6) := by omega
    simp [hidxbit, hn]

/-- Masking the tagged pointer with `IDX_MASK` recovers the slab address. -/
theorem tagged_land_IDX_MASK {addr idx : Nat} (halign : addr % 64 = 0)
    (haddr : addr < U64_MOD) (hidx : idx < 64) :
    (addr ||| idx) &&& IDX_MASK = addr := by
  apply Nat.eq_of_testBit_eq
  intro j
  rw [Nat.testBit_land, Nat.testBit_or, testBit_IDX_MASK]
  rcases Nat.lt_or_ge j 6 with hj | hj
  · have hn : ¬ (6 ≤ j) := by omega
    simp [testBit_low_of_aligned halign hj, hn]
  · rcases Nat.lt_or_ge j 64 with hj64 | hj64
    · have hidxbit : idx.testBit j = false := by
        apply Nat.testBit_lt_two_pow
        calc idx < 64 := hidx
          _ = 2 ^ 6 := by decide
          _ ≤ 2 ^ j := Nat.pow_le_pow_right (by decide) hj
      simp [hidxbit, hj, hj64]
    · have hn : ¬ (j < 64) := by omega
      simp [testBit_high_false haddr hj64, hn]

/- ## C2: into_raw in lib.rs does not suppress drop (code bug) -/

/-- The `ManuallyDrop` embodiments of `into_raw` (heapless.rs, arena.rs,
boxed.rs) satisfy the spec's frame contract: the pointer is `addr | idx`,
no destructor runs, and the slab — occupancy bits and cell contents — is
unchanged.  The lib.rs draft below does not. -/
theorem into_raw_keep_frame {T : Type} (st : Slab64 T) (addr idx : Nat) :
    (into_raw_keep_op st addr idx).1 = (addr ||| idx) ∧
    (into_raw_keep_op st addr idx).2.1 = st ∧
    (into_raw_keep_op st addr idx).2.2 = ([] : List T) :=
  ⟨rfl, rfl, rfl⟩

/-- C2 (code bug): the cited lib.rs `Slot::into_raw` yields the tagged
pointer but does NOT suppress drop of the handle.  Evaluated at the
failing input — a slab at address 256 whose cell 3 holds `42`
(occupancy `0b1000`): the returned pointer is `256 ||| 3`, but the
handle's implicit drop destructs `42`, clears occupancy bit 3, and
leaves the cell raw — against the claim that the bit remains set, the
value is not destructed, and the cell contents are unchanged. -/
theorem c2_lib_into_raw_drops :
    (into_raw_op (T := Nat)
      ⟨2 ^ 3, fun j => if j = ⟨3, by decide⟩ then some 42 else none⟩
      256 ⟨3, by decide⟩).1 = (256 ||| 3) ∧
    (into_raw_op (T := Nat)
      ⟨2 ^ 3, fun j => if j = ⟨3, by decide⟩ then some 42 else none⟩
      256 ⟨3, by decide⟩).2.1.occupancy.testBit 3 = false ∧
    (into_raw_op (T := Nat)
      ⟨2 ^ 3, fun j => if j = ⟨3, by decide⟩ then some 42 else none⟩
      256 ⟨3, by decide⟩).2.1.slots ⟨3, by decide⟩ = none ∧
    (into_raw_op (T := Nat)
      ⟨2 ^ 3, fun j => if j = ⟨3, by decide⟩ then some 42 else none⟩
      256 ⟨3, by decide⟩).2.2 = [42] := by
  refine ⟨?_, ?_, ?_, ?_⟩ <;> decide

/- ## C3: the tagged-pointer round trip -/

/-- C3: for a slab address aligned to 64 bytes and an index below 64,
`from_raw (into_raw s)` recovers exactly the slab address and index, and
therefore dereferences to the same cell value as `s`. -/
theorem c3_round_trip {T : Type} (heap : Nat → Slab64 T) (addr idx : Nat)
    (halign : addr % 64 = 0) (haddr : addr < U64_MOD) (hidx : idx < 64) :
    slot_from_raw (slot_into_raw addr idx) = (addr, idx) ∧
    slot_deref heap (slot_from_raw (slot_into_raw addr idx)).1
        (slot_from_raw (slot_into_raw addr idx)).2 =
      slot_deref heap addr idx := by
  have h : slot_from_raw (slot_into_raw addr idx) = (addr, idx) := by
    unfold slot_from_raw slot_into_raw
    rw [tagged_land_IDX_MASK halign haddr hidx, tagged_land_IDX halign hidx]
  exact ⟨h, by rw [h]⟩

/-- Witness for C3: heap with a slab at address 128 holding `7` in cell 5;
the round trip through the tagged pointer `128 ||| 5 = 133` recovers the
same address, index and dereferenced value. -/
theorem c3_round_trip_witness :
    slot_from_raw (slot_into_raw 128 5) = (128, 5) ∧
    slot_deref (fun a => if a = 128 then
        (⟨2 ^ 5, fun j => if j = ⟨5, by decide⟩ then some 7 else none⟩ : Slab64 Nat)
      else ⟨0, fun _ => none⟩)
      (slot_from_raw (slot_into_raw 128 5)).1
      (slot_from_raw (slot_into_raw 128 5)).2 =
    slot_deref (fun a => if a = 128 then
        (⟨2 ^ 5, fun j => if j = ⟨5, by decide⟩ then some 7 else none⟩ : Slab64 Nat)
      else ⟨0, fun _ => none⟩) 128 5 :=
  c3_round_trip _ 128 5 (by decide) (by decide) (by decide)

/- ## C6: take returns the value, suppresses drop, releases the bit -/

/-- `Slot::take` (heapless.rs lines 108-120, arena.rs lines 88-104):
`mem::replace` moves the cell's value out leaving the storage raw,
`fetch_and(!(1 << idx))` releases the bit, and `forget(self)` suppresses
the handle's destructor, so no contained value is dropped.  Returns the
moved value, the updated slab, and the (empty) list of destructed
values. -/
def take_op {T : Type} (st : Slab64 T) (i : Fin 64) :
    Option T × Slab64 T × List T :=
  (st.slots i,
   ⟨clear_bit st.occupancy i.val, fun j => if j = i then none else st.slots j⟩,
   [])

/-- C6: `take` on a slot holding `v` returns exactly `v`, invokes no
destructor, releases the occupancy bit, leaves the cell raw, and touches
no other cell or bit. -/
theorem c6_take_returns_value {T : Type} (st : Slab64 T) (i : Fin 64)
    (v : T) (hocc : st.occupancy < U64_MOD) (hv : st.slots i = some v) :
    (take_op st i).1 = some v ∧
    (take_op st i).2.2 = [] ∧
    (take_op st i).2.1.occupancy.testBit i.val = false ∧
    (take_op st i).2.1.slots i = none ∧
    (∀ j, j ≠ i → (take_op st i).2.1.slots j = st.slots j) ∧
    (∀ j, j ≠ i.val → (take_op st i).2.1.occupancy.testBit j =
      st.occupancy.testBit j) := by
  refine ⟨hv, rfl, ?_, by simp [take_op], ?_, ?_⟩
  · show (clear_bit st.occupancy i.val).testBit i.val = false
    rw [testBit_clear_bit i.val i.val hocc]
    simp
  · intro j hj
    show (if j = i then none else st.slots j) = st.slots j
    simp [hj]
  · intro j hj
    show (clear_bit st.occupancy i.val).testBit j = st.occupancy.testBit j
    rw [testBit_clear_bit i.val j hocc]
    simp [hj]

/-- Witness for C6: taking cell 2 (holding `9`) out of a slab with
occupancy `0b100` returns `9`, destructs nothing, and clears the bit. -/
theorem c6_take_returns_value_witness :
    (take_op ⟨2 ^ 2, fun j => if j = ⟨2, by decide⟩ then some 9 else none⟩
      (⟨2, by decide⟩ : Fin 64)).1 = some 9 ∧
    (take_op ⟨2 ^ 2, fun j => if j = ⟨2, by decide⟩ then some 9 else none⟩
      (⟨2, by decide⟩ : Fin 64)).2.2 = [] ∧
    (take_op ⟨2 ^ 2, fun j => if j = ⟨2, by decide⟩ then some 9 else none⟩
      (⟨2, by decide⟩ : Fin 64)).2.1.occupancy.testBit 2 = false ∧
    (take_op ⟨2 ^ 2, fun j => if j = ⟨2, by decide⟩ then some 9 else none⟩
      (⟨2, by decide⟩ : Fin 64)).2.1.slots ⟨2, by decide⟩ = none ∧
    (∀ j, j ≠ (⟨2, by decide⟩ : Fin 64) →
      (take_op ⟨2 ^ 2, fun j => if j = ⟨2, by decide⟩ then some 9 else none⟩
        (⟨2, by decide⟩ : Fin 64)).2.1.slots j =
      (fun j => if j = (⟨2, by decide⟩ : Fin 64) then some (9 : Nat) else none) j) ∧
    (∀ j, j ≠ 2 →
      (take_op ⟨2 ^ 2, fun j => if j = ⟨2, by decide⟩ then some 9 else none⟩
        (⟨2, by decide⟩ : Fin 64)).2.1.occupancy.testBit j =
      Nat.testBit (2 ^ 2) j) :=
  c6_take_returns_value _ _ 9 (by decide) (by decide)

/- ## C7: occupancy counts outstanding handles (Fixed64 lifecycle) -/

/-- The kind of embodiment currently owning a cell: an `UninitSlot`
handle, an initialized `Slot` handle, or a tagged pointer produced by
`into_raw`. -/
inductive HKind where
  | uninitH : HKind
  | slotH : HKind
  | rawH : HKind
  deriving DecidableEq

/-- Ghost state for one `Fixed64` slab: the occupancy word together with
the outstanding embodiment (if any) for each cell index. -/
structure FixedSt where
  occ : Nat
  handles : Nat → Option HKind

/-- Pointwise update of the handle map. -/
def hupd (f : Nat → Option HKind) (i : Nat) (v : Option HKind) :
    Nat → Option HKind :=
  fun j => if j = i then v else f j

/-- The operations of the `Fixed64` slot lifecycle, acting on the ghost
state.  `acquireF` is `get_uninit_slot` (sets the isolated lowest clear
bit, creates an `UninitSlot`); `insertF` initializes in place
(`UninitSlot::insert`, no occupancy change); `intoRawF`/`fromRawF`
convert a `Slot` to and from its tagged pointer with no occupancy
change — these model the `ManuallyDrop` embodiments of `into_raw`
(heapless.rs lines 143-148, arena.rs lines 127-130, boxed.rs lines
201-205); the drop-running lib.rs draft of `into_raw` is modeled
separately by `FStepLib` below;
`takeF`, `dropSlotF` and `dropUninitF` all release via
`fetch_and(!(1 << i))` and retire the embodiment. -/
inductive FStep : FixedSt → FixedSt → Prop where
  | acquireF (s : FixedSt) (h : least_significant_bit s.occ ≠ 0) :
      FStep s ⟨s.occ ||| least_significant_bit s.occ,
        hupd s.handles (trailing_zeros (least_significant_bit s.occ))
          (some HKind.uninitH)⟩
  | insertF (s : FixedSt) (i : Nat) (h : s.handles i = some HKind.uninitH) :
      FStep s ⟨s.occ, hupd s.handles i (some HKind.slotH)⟩
  | intoRawF (s : FixedSt) (i : Nat) (h : s.handles i = some HKind.slotH) :
      FStep s ⟨s.occ, hupd s.handles i (some HKind.rawH)⟩
  | fromRawF (s : FixedSt) (i : Nat) (h : s.handles i = some HKind.rawH) :
      FStep s ⟨s.occ, hupd s.handles i (some HKind.slotH)⟩
  | takeF (s : FixedSt) (i : Nat) (h : s.handles i = some HKind.slotH) :
      FStep s ⟨clear_bit s.occ i, hupd s.handles i none⟩
  | dropSlotF (s : FixedSt) (i : Nat) (h : s.handles i = some HKind.slotH) :
      FStep s ⟨clear_bit s.occ i, hupd s.handles i none⟩
  | dropUninitF (s : FixedSt) (i : Nat) (h : s.handles i = some HKind.uninitH) :
      FStep s ⟨clear_bit s.occ i, hupd s.handles i none⟩

/-- A fresh `Fixed64::new()`: occupancy 0, no outstanding handles. -/
def FixedInit : FixedSt := ⟨0, fun _ => none⟩

/-- States reachable from a fresh slab by slot-lifecycle operations. -/
inductive FReach : FixedSt → Prop where
  | start : FReach FixedInit
  | step {s s' : FixedSt} : FReach s → FStep s s' → FReach s'

/-- The slab invariant: the occupancy word fits in 64 bits and bit `j` is
set exactly when cell `j` has an outstanding embodiment. -/
def FInv (s : FixedSt) : Prop :=
  s.occ < U64_MOD ∧ ∀ j, (s.handles j).isSome = s.occ.testBit j

theorem finv_start : FInv FixedInit := by
  refine ⟨U64_MOD_pos, ?_⟩
  intro j
  simp [FixedInit]

theorem finv_step {s s' : FixedSt} (hinv : FInv s) (hstep : FStep s s') :
    FInv s' := by
  obtain ⟨hocc, hbits⟩ := hinv
  cases hstep with
  | acquireF h =>
    have hne : s.occ ≠ ALL_ONES := fun he => h (by rw [he]; exact lsb_all_ones)
    obtain ⟨i, hi, hbit, hlow⟩ := exists_least_clear hocc hne
    have hlsb := lsb_eq_pow hocc hi hbit hlow
    refine ⟨?_, ?_⟩
    · simp only [hlsb]
      exact lor_pow_lt hocc hi
    · intro j
      simp only [hlsb, tz_two_pow hi, hupd, testBit_lor_pow]
      rcases Decidable.em (j = i) with hj | hj
      · subst hj; simp
      · simp [hj, hbits j]
  | insertF i h =>
    refine ⟨hocc, ?_⟩
    intro j
    simp only [hupd]
    rcases Decidable.em (j = i) with hj | hj
    · subst hj
      have := hbits j
      rw [h] at this
      simp at this
      simp [this]
    · simp [hj, hbits j]
  | intoRawF i h =>
    refine ⟨hocc, ?_⟩
    intro j
    simp only [hupd]
    rcases Decidable.em (j = i) with hj | hj
    · subst hj
      have := hbits j
      rw [h] at this
      simp at this
      simp [this]
    · simp [hj, hbits j]
  | fromRawF i h =>
    refine ⟨hocc, ?_⟩
    intro j
    simp only [hupd]
    rcases Decidable.em (j = i) with hj | hj
    · subst hj
      have := hbits j
      rw [h] at this
      simp at this
      simp [this]
    · simp [hj, hbits j]
  | takeF i h =>
    refine ⟨clear_bit_lt hocc, ?_⟩
    intro j
    rw [testBit_clear_bit i j hocc]
    simp only [hupd]
    rcases Decidable.em (j = i) with hj | hj
    · subst hj; simp
    · simp [hj, hbits j]
  | dropSlotF i h =>
    refine ⟨clear_bit_lt hocc, ?_⟩
    intro j
    rw [testBit_clear_bit i j hocc]
    simp only [hupd]
    rcases Decidable.em (j = i) with hj | hj
    · subst hj; simp
    · simp [hj, hbits j]
  | dropUninitF i h =>
    refine ⟨clear_bit_lt hocc, ?_⟩
    intro j
    rw [testBit_clear_bit i j hocc]
    simp only [hupd]
    rcases Decidable.em (j = i) with hj | hj
    · subst hj; simp
    · simp [hj, hbits j]

theorem finv_reach {s : FixedSt} (h : FReach s) : FInv s := by
  induction h with
  | start => exact finv_start
  | step _ hstep ih => exact finv_step ih hstep

/-- The number of set bits in (the low 64 bits of) the occupancy word. -/
def occupied_bits (occ : Nat) : Nat :=
  ((List.range 64).filter (fun j => occ.testBit j)).length

/-- The number of outstanding embodiments (`UninitSlot`, `Slot`, or
tagged pointer) referring to the slab. -/
def outstanding (handles : Nat → Option HKind) : Nat :=
  ((List.range 64).filter (fun j => (handles j).isSome)).length

/-- With the `ManuallyDrop` embodiment of `into_raw`, every state
reachable by acquire, insert, into_raw, from_raw, take and drop
operations has as many set occupancy bits as outstanding handles plus
tagged-pointer embodiments — the intent the lib.rs draft of `into_raw`
breaks below. -/
theorem manuallydrop_count_invariant (s : FixedSt) (h : FReach s) :
    occupied_bits s.occ = outstanding s.handles := by
  obtain ⟨hocc, hbits⟩ := finv_reach h
  unfold occupied_bits outstanding
  have : ((List.range 64).filter (fun j => s.occ.testBit j)) =
      ((List.range 64).filter (fun j => (s.handles j).isSome)) := by
    apply List.filter_congr
    intro j hj
    exact (hbits j).symm
  rw [this]

/-- The `Fixed64`/`Arena64` cell lifecycle with `Slot::into_raw` taken
from the lib.rs draft (lines 131-141) that the occupancy-count claim
cites: identical to `FStep` except `intoRawL`, which — lacking
`ManuallyDrop`/`forget` — destructs the value and clears the occupancy
bit via the handle's implicit drop while the tagged-pointer embodiment
stays outstanding. -/
inductive FStepLib : FixedSt → FixedSt → Prop where
  | acquireL (s : FixedSt) (h : least_significant_bit s.occ ≠ 0) :
      FStepLib s ⟨s.occ ||| least_significant_bit s.occ,
        hupd s.handles (trailing_zeros (least_significant_bit s.occ))
          (some HKind.uninitH)⟩
  | insertL (s : FixedSt) (i : Nat) (h : s.handles i = some HKind.uninitH) :
      FStepLib s ⟨s.occ, hupd s.handles i (some HKind.slotH)⟩
  | intoRawL (s : FixedSt) (i : Nat) (h : s.handles i = some HKind.slotH) :
      FStepLib s ⟨clear_bit s.occ i, hupd s.handles i (some HKind.rawH)⟩
  | fromRawL (s : FixedSt) (i : Nat) (h : s.handles i = some HKind.rawH) :
      FStepLib s ⟨s.occ, hupd s.handles i (some HKind.slotH)⟩
  | takeL (s : FixedSt) (i : Nat) (h : s.handles i = some HKind.slotH) :
      FStepLib s ⟨clear_bit s.occ i, hupd s.handles i none⟩
  | dropSlotL (s : FixedSt) (i : Nat) (h : s.handles i = some HKind.slotH) :
      FStepLib s ⟨clear_bit s.occ i, hupd s.handles i none⟩
  | dropUninitL (s : FixedSt) (i : Nat) (h : s.handles i = some HKind.uninitH) :
      FStepLib s ⟨clear_bit s.occ i, hupd s.handles i none⟩

/-- Reachability under the lifecycle with the lib.rs `into_raw`. -/
inductive FReachLib : FixedSt → Prop where
  | start : FReachLib FixedInit
  | step {s s' : FixedSt} : FReachLib s → FStepLib s s' → FReachLib s'

/-- C7 (code bug): with `into_raw` as staged in lib.rs lines 131-141 the
occupancy-count invariant fails.  The failing input is the sequence
acquire cell 0, insert a value, `into_raw`: it reaches a state with 0
set occupancy bits but 1 outstanding tagged-pointer embodiment, because
lib.rs's `into_raw` clears the bit (and destructs the value) through the
handle's implicit drop while the raw pointer remains outstanding. -/
theorem c7_lib_into_raw_breaks_count :
    ∃ s : FixedSt, FReachLib s ∧ occupied_bits s.occ = 0 ∧
      outstanding s.handles = 1 := by
  refine ⟨⟨clear_bit (FixedInit.occ ||| least_significant_bit FixedInit.occ) 0,
    hupd (hupd (hupd FixedInit.handles
        (trailing_zeros (least_significant_bit FixedInit.occ))
        (some HKind.uninitH)) 0 (some HKind.slotH)) 0 (some HKind.rawH)⟩,
    ?_, ?_, ?_⟩
  · exact FReachLib.step (FReachLib.step (FReachLib.step FReachLib.start
      (FStepLib.acquireL FixedInit (by decide)))
      (FStepLib.insertL _ 0 (by decide)))
      (FStepLib.intoRawL _ 0 (by decide))
  · decide
  · decide

/- ## C4: the Boxed64 deferred-deallocation handshake -/

/-- Bits of the toggle release `occ ^ (1 << i)`. -/
theorem testBit_xor_pow (occ i j : Nat) :
    (occ ^^^ 2 ^ i).testBit j = ((occ.testBit j).xor (decide (j = i))) := by
  rw [Nat.testBit_xor]
  rcases Decidable.em (j = i) with h | h
  · subst h; simp [Nat.testBit_two_pow_self]
  · simp [Nat.testBit_two_pow_of_ne (by omega : i ≠ j), h]

/-- `occ` equals `!(1 << i)` exactly when its low 64 bits are all set
except bit `i`. -/
theorem eq_not64_pow_iff {occ i : Nat} (hocc : occ < U64_MOD)
    (hi : i < 64) :
    occ = not64 (bitMask i) ↔
      (∀ j, j < 64 → occ.testBit j = ! decide (j = i)) := by
  have hcomm : ∀ j : Nat, decide (i = j) = decide (j = i) := by
    intro j
    rcases Decidable.em (j = i) with h | h
    · subst h; rfl
    · have h2 : ¬ (i = j) := fun he => h he.symm
      simp [h, h2]
  constructor
  · intro h j hj
    rw [h, bitMask_eq, testBit_not64, Nat.testBit_two_pow, hcomm j]
    rw [decide_eq_true hj]
    cases decide (j = i) <;> rfl
  · intro h
    apply Nat.eq_of_testBit_eq
    intro j
    rw [bitMask_eq, testBit_not64, Nat.testBit_two_pow, hcomm j]
    rcases Nat.lt_or_ge j 64 with hj | hj
    · rw [h j hj, decide_eq_true hj]
      cases decide (j = i) <;> rfl
    · have hne : ¬ (j = i) := by omega
      have hn64 : ¬ (j < 64) := by omega
      rw [testBit_high_false hocc hj]
      simp [hne, hn64]

/-- A 64-bit word is zero exactly when its low 64 bits are all clear. -/
theorem eq_zero_iff_low_bits {occ : Nat} (hocc : occ < U64_MOD) :
    occ = 0 ↔ ∀ j, j < 64 → occ.testBit j = false := by
  constructor
  · intro h j hj; rw [h]; simp
  · intro h
    apply Nat.eq_of_testBit_eq
    intro j
    rcases Nat.lt_or_ge j 64 with hj | hj
    · simp [h j hj]
    · simp [testBit_high_false hocc hj]

/-- Ghost state of one `Boxed64` heap slab: the occupancy word, the set
of outstanding cell handles, whether the `Boxed64` owner handle is still
alive (acquisition gateway open, occupancy in live encoding), and whether
`Box::from_raw` has deallocated the slab. -/
structure BoxSt where
  occ : Nat
  holders : Nat → Bool
  live : Bool
  freed : Bool

/-- Pointwise update of the holder set. -/
def bupd (f : Nat → Bool) (i : Nat) (v : Bool) : Nat → Bool :=
  fun j => if j = i then v else f j

/-- `Boxed64::get_uninit_slot` through the live owner handle: reserve the
isolated lowest clear bit. -/
def box_acquire (s : BoxSt) : BoxSt :=
  ⟨s.occ ||| least_significant_bit s.occ,
   bupd s.holders (trailing_zeros (least_significant_bit s.occ)) true,
   s.live, s.freed⟩

/-- A cell handle's release (boxed.rs `UninitSlot::drop`, `Slot::drop`
and `Slot::take` all do this): `fetch_xor(1 << i, AcqRel)`, and if the
returned previous word equals `!(1 << i)` this was the last clear bit
after a seal, so the handle frees the heap slab. -/
def box_release (s : BoxSt) (i : Nat) : BoxSt :=
  ⟨s.occ ^^^ bitMask i, bupd s.holders i false, s.live,
   s.freed || decide (s.occ = not64 (bitMask i))⟩

/-- `Boxed64::drop`: seal via `fetch_xor(u64::MAX, AcqRel)`; if the
returned previous word is 0 there are no outstanding cells and the owner
frees the slab itself. -/
def box_seal (s : BoxSt) : BoxSt :=
  ⟨s.occ ^^^ ALL_ONES, s.holders, false, s.freed || decide (s.occ = 0)⟩

/-- The `Boxed64` lifecycle: acquisitions require the live owner handle
(it is the sole acquire gateway); releases require an outstanding holder;
the owner drops (seals) once. -/
inductive BStep : BoxSt → BoxSt → Prop where
  | acquireB (s : BoxSt) (hlive : s.live = true)
      (h : least_significant_bit s.occ ≠ 0) : BStep s (box_acquire s)
  | releaseB (s : BoxSt) (i : Nat) (h : s.holders i = true) :
      BStep s (box_release s i)
  | sealB (s : BoxSt) (hlive : s.live = true) : BStep s (box_seal s)

/-- A fresh `Boxed64::new()`. -/
def BoxInit : BoxSt := ⟨0, fun _ => false, true, false⟩

/-- States of a `Boxed64` slab reachable from creation. -/
inductive BReach : BoxSt → Prop where
  | start : BReach BoxInit
  | step {s s' : BoxSt} : BReach s → BStep s s' → BReach s'

/-- The handshake invariant.  Live: bit `j` set iff cell `j` held, not
yet freed.  Sealed but not freed: bit `j` CLEAR iff cell `j` held (the
seal inverted the encoding), and at least one holder remains.  Freed: no
holders remain. -/
def BInv (s : BoxSt) : Prop :=
  s.occ < U64_MOD ∧
  (∀ j, 64 ≤ j → s.holders j = false) ∧
  (s.live = true → s.freed = false ∧
    ∀ j, j < 64 → s.occ.testBit j = s.holders j) ∧
  (s.live = false → s.freed = false →
    (∀ j, j < 64 → s.occ.testBit j = !(s.holders j)) ∧
    ∃ j, s.holders j = true) ∧
  (s.freed = true → ∀ j, s.holders j = false)

theorem binv_start : BInv BoxInit := by
  refine ⟨U64_MOD_pos, ?_, ?_, ?_, ?_⟩ <;> simp [BoxInit]

theorem holder_lt_64 {s : BoxSt} (hhigh : ∀ j, 64 ≤ j → s.holders j = false)
    {i : Nat} (h : s.holders i = true) : i < 64 := by
  by_contra hc
  push_neg at hc
  rw [hhigh i hc] at h
  exact Bool.false_ne_true h

/-- In the live state a release never sees `prev == !(1 << i)`: bit `i`
of the previous word is set, while `!(1 << i)` has it clear. -/
theorem live_release_no_free {s : BoxSt} (hinv : BInv s)
    (hlive : s.live = true) {i : Nat} (h : s.holders i = true) :
    decide (s.occ = not64 (bitMask i)) = false := by
  obtain ⟨hocc, hhigh, hliveinv, _, _⟩ := hinv
  obtain ⟨_, hbits⟩ := hliveinv hlive
  have hi : i < 64 := holder_lt_64 hhigh h
  apply decide_eq_false
  intro he
  have := (eq_not64_pow_iff hocc hi).mp he i hi
  rw [hbits i hi, h] at this
  simp at this

/-- In the sealed state a release sees `prev == !(1 << i)` exactly when
`i` is the sole remaining holder. -/
theorem sealed_release_free_iff {s : BoxSt} (hinv : BInv s)
    (hlive : s.live = false) (hfreed : s.freed = false) {i : Nat}
    (h : s.holders i = true) :
    s.occ = not64 (bitMask i) ↔ (∀ j, s.holders j = true → j = i) := by
  obtain ⟨hocc, hhigh, _, hsealinv, _⟩ := hinv
  obtain ⟨hbits, _⟩ := hsealinv hlive hfreed
  have hi : i < 64 := holder_lt_64 hhigh h
  rw [eq_not64_pow_iff hocc hi]
  constructor
  · intro hb j hj
    have hj64 : j < 64 := holder_lt_64 hhigh hj
    have h1 := hb j hj64
    rw [hbits j hj64, hj] at h1
    simp at h1
    exact h1
  · intro huniq j hj64
    rw [hbits j hj64]
    rcases Decidable.em (j = i) with hje | hje
    · subst hje; simp [h]
    · have : s.holders j = false := by
        cases hc : s.holders j with
        | false => rfl
        | true => exact absurd (huniq j hc) hje
      simp [this, hje]

/-- At seal time `prev == 0` exactly when no cells are outstanding. -/
theorem seal_free_iff {s : BoxSt} (hinv : BInv s) (hlive : s.live = true) :
    s.occ = 0 ↔ ∀ j, s.holders j = false := by
  obtain ⟨hocc, hhigh, hliveinv, _, _⟩ := hinv
  obtain ⟨_, hbits⟩ := hliveinv hlive
  rw [eq_zero_iff_low_bits hocc]
  constructor
  · intro hb j
    rcases Nat.lt_or_ge j 64 with hj | hj
    · rw [← hbits j hj]; exact hb j hj
    · exact hhigh j hj
  · intro hall j hj
    rw [hbits j hj]; exact hall j

theorem binv_step {s s' : BoxSt} (hinv : BInv s) (hstep : BStep s s') :
    BInv s' := by
  obtain ⟨hocc, hhigh, hliveinv, hsealinv, hfreedinv⟩ := hinv
  cases hstep with
  | acquireB hlive h =>
    obtain ⟨hfr, hbits⟩ := hliveinv hlive
    have hne : s.occ ≠ ALL_ONES := fun he => h (by rw [he]; exact lsb_all_ones)
    obtain ⟨i, hi, hbit, hlow⟩ := exists_least_clear hocc hne
    have hlsb := lsb_eq_pow hocc hi hbit hlow
    refine ⟨?_, ?_, ?_, ?_, ?_⟩
    · show s.occ ||| least_significant_bit s.occ < U64_MOD
      rw [hlsb]; exact lor_pow_lt hocc hi
    · intro j hj
      show bupd s.holders (trailing_zeros (least_significant_bit s.occ)) true j = false
      unfold bupd
      rw [hlsb, tz_two_pow hi]
      have hne2 : ¬ (j = i) := by omega
      simp [hne2, hhigh j hj]
    · intro _
      refine ⟨hfr, ?_⟩
      intro j hj
      show (s.occ ||| least_significant_bit s.occ).testBit j =
        bupd s.holders (trailing_zeros (least_significant_bit s.occ)) true j
      rw [hlsb, tz_two_pow hi, testBit_lor_pow]
      unfold bupd
      rcases Decidable.em (j = i) with hje | hje
      · subst hje; simp
      · simp [hje, hbits j hj]
    · intro hl'
      rw [show (box_acquire s).live = s.live from rfl, hlive] at hl'
      exact absurd hl' (by simp)
    · intro hf'
      rw [show (box_acquire s).freed = s.freed from rfl, hfr] at hf'
      exact absurd hf' (by simp)
  | releaseB i h =>
    have hfr : s.freed = false := by
      cases hf : s.freed with
      | false => rfl
      | true => exact absurd h (by rw [hfreedinv hf i]; simp)
    have hi : i < 64 := holder_lt_64 hhigh h
    have hoccx : s.occ ^^^ bitMask i < U64_MOD := by
      rw [bitMask_eq]
      exact Nat.xor_lt_two_pow hocc (Nat.pow_lt_pow_right (by decide) hi)
    have hhigh' : ∀ j, 64 ≤ j → bupd s.holders i false j = false := by
      intro j hj
      unfold bupd
      rcases Decidable.em (j = i) with hje | hje
      · simp [hje]
      · simp [hje, hhigh j hj]
    cases hl : s.live with
    | true =>
      obtain ⟨_, hbits⟩ := hliveinv hl
      have hnofree := live_release_no_free ⟨hocc, hhigh, hliveinv, hsealinv, hfreedinv⟩ hl h
      refine ⟨hoccx, hhigh', ?_, ?_, ?_⟩
      · intro _
        refine ⟨?_, ?_⟩
        · show (s.freed || decide (s.occ = not64 (bitMask i))) = false
          rw [hfr, hnofree]
          rfl
        · intro j hj
          show (s.occ ^^^ bitMask i).testBit j = bupd s.holders i false j
          rw [bitMask_eq, testBit_xor_pow]
          unfold bupd
          rcases Decidable.em (j = i) with hje | hje
          · subst hje; simp [hbits j hj, h]
          · simp [hje, hbits j hj]
      · intro hl'
        rw [show (box_release s i).live = s.live from rfl, hl] at hl'
        exact absurd hl' (by simp)
      · intro hf'
        rw [show (box_release s i).freed =
          (s.freed || decide (s.occ = not64 (bitMask i))) from rfl,
          hfr, hnofree] at hf'
        exact absurd hf' (by simp)
    | false =>
      obtain ⟨hbits, _⟩ := hsealinv hl hfr
      cases hdec : decide (s.occ = not64 (bitMask i)) with
      | true =>
        have heq : s.occ = not64 (bitMask i) := of_decide_eq_true hdec
        have huniq := (sealed_release_free_iff
          ⟨hocc, hhigh, hliveinv, hsealinv, hfreedinv⟩ hl hfr h).mp heq
        refine ⟨hoccx, hhigh', ?_, ?_, ?_⟩
        · intro hl'
          rw [show (box_release s i).live = s.live from rfl, hl] at hl'
          exact absurd hl' (by simp)
        · intro _ hf'
          rw [show (box_release s i).freed =
            (s.freed || decide (s.occ = not64 (bitMask i))) from rfl,
            hfr, hdec] at hf'
          exact absurd hf' (by simp)
        · intro _
          intro j
          show bupd s.holders i false j = false
          unfold bupd
          rcases Decidable.em (j = i) with hje | hje
          · simp [hje]
          · have : s.holders j = false := by
              cases hc : s.holders j with
              | false => rfl
              | true => exact absurd (huniq j hc) hje
            simp [hje, this]
      | false =>
        have hneq : s.occ ≠ not64 (bitMask i) := of_decide_eq_false hdec
        have hnouniq := (not_iff_not.mpr (sealed_release_free_iff
          ⟨hocc, hhigh, hliveinv, hsealinv, hfreedinv⟩ hl hfr h)).mp hneq
        push_neg at hnouniq
        obtain ⟨j0, hj0h, hj0ne⟩ := hnouniq
        refine ⟨hoccx, hhigh', ?_, ?_, ?_⟩
        · intro hl'
          rw [show (box_release s i).live = s.live from rfl, hl] at hl'
          exact absurd hl' (by simp)
        · intro _ _
          refine ⟨?_, ?_⟩
          · intro j hj
            show (s.occ ^^^ bitMask i).testBit j = !(bupd s.holders i false j)
            rw [bitMask_eq, testBit_xor_pow]
            unfold bupd
            rcases Decidable.em (j = i) with hje | hje
            · subst hje; simp [hbits j hj, h]
            · simp [hje, hbits j hj]
          · refine ⟨j0, ?_⟩
            show bupd s.holders i false j0 = true
            unfold bupd
            simp [hj0ne, hj0h]
        · intro hf'
          rw [show (box_release s i).freed =
            (s.freed || decide (s.occ = not64 (bitMask i))) from rfl,
            hfr, hdec] at hf'
          exact absurd hf' (by simp)
  | sealB hlive =>
    obtain ⟨hfr, hbits⟩ := hliveinv hlive
    have hoccx : s.occ ^^^ ALL_ONES < U64_MOD :=
      Nat.xor_lt_two_pow hocc ALL_ONES_lt
    cases hdec : decide (s.occ = 0) with
    | true =>
      have heq : s.occ = 0 := of_decide_eq_true hdec
      have hall := (seal_free_iff
        ⟨hocc, hhigh, hliveinv, hsealinv, hfreedinv⟩ hlive).mp heq
      refine ⟨hoccx, ?_, ?_, ?_, ?_⟩
      · intro j _; exact hall j
      · intro hl'
        rw [show (box_seal s).live = false from rfl] at hl'
        exact absurd hl' (by simp)
      · intro _ hf'
        rw [show (box_seal s).freed = (s.freed || decide (s.occ = 0)) from rfl,
          hfr, hdec] at hf'
        exact absurd hf' (by simp)
      · intro _ j; exact hall j
    | false =>
      have hneq : s.occ ≠ 0 := of_decide_eq_false hdec
      have hnall := (not_iff_not.mpr (seal_free_iff
        ⟨hocc, hhigh, hliveinv, hsealinv, hfreedinv⟩ hlive)).mp hneq
      push_neg at hnall
      obtain ⟨j0, hj0⟩ := hnall
      have hj0t : s.holders j0 = true := by
        cases hc : s.holders j0 with
        | false => exact absurd hc hj0
        | true => rfl
      refine ⟨hoccx, ?_, ?_, ?_, ?_⟩
      · intro j hj; exact hhigh j hj
      · intro hl'
        rw [show (box_seal s).live = false from rfl] at hl'
        exact absurd hl' (by simp)
      · intro _ _
        refine ⟨?_, ⟨j0, hj0t⟩⟩
        intro j hj
        show (s.occ ^^^ ALL_ONES).testBit j = !(s.holders j)
        rw [show s.occ ^^^ ALL_ONES = not64 s.occ from rfl, testBit_not64]
        rw [hbits j hj, decide_eq_true hj]
        cases s.holders j <;> rfl
      · intro hf'
        rw [show (box_seal s).freed = (s.freed || decide (s.occ = 0)) from rfl,
          hfr, hdec] at hf'
        exact absurd hf' (by simp)

theorem binv_reach {s : BoxSt} (h : BReach s) : BInv s := by
  induction h with
  | start => exact binv_start
  | step _ hstep ih => exact binv_step ih hstep

/-- C4: the heap slab of a `Boxed64` is freed exactly once, by the last
party to drop.  In every reachable state: once freed no holder remains
(so nothing can free again); a live state is never freed; a release in
the live state never triggers the free; the seal performed by
`Boxed64::drop` frees iff its `fetch_xor(u64::MAX)` returns 0, i.e. iff
no cells are outstanding; and after the seal a release frees iff its
`fetch_xor(1 << i)` returns `!(1 << i)`, i.e. iff it is the unique
outstanding holder. -/
theorem c4_boxed_freed_exactly_once (s : BoxSt) (hr : BReach s) :
    (s.freed = true → ∀ j, s.holders j = false) ∧
    (s.live = true → s.freed = false) ∧
    (∀ i, s.live = true → s.holders i = true →
      (box_release s i).freed = false) ∧
    (s.live = true → ((box_seal s).freed = true ↔
      (s.occ = 0 ∧ ∀ j, s.holders j = false))) ∧
    (∀ i, s.live = false → s.freed = false → s.holders i = true →
      ((box_release s i).freed = true ↔
        (s.occ = not64 (bitMask i) ∧ ∀ j, s.holders j = true → j = i))) := by
  have hinv := binv_reach hr
  obtain ⟨hocc, hhigh, hliveinv, hsealinv, hfreedinv⟩ := hinv
  refine ⟨hfreedinv, fun hl => (hliveinv hl).1, ?_, ?_, ?_⟩
  · intro i hl hi
    show (s.freed || decide (s.occ = not64 (bitMask i))) = false
    rw [(hliveinv hl).1,
      live_release_no_free ⟨hocc, hhigh, hliveinv, hsealinv, hfreedinv⟩ hl hi]
    rfl
  · intro hl
    show (s.freed || decide (s.occ = 0)) = true ↔ _
    rw [(hliveinv hl).1]
    simp only [Bool.false_or, decide_eq_true_eq]
    constructor
    · intro h0
      exact ⟨h0, (seal_free_iff
        ⟨hocc, hhigh, hliveinv, hsealinv, hfreedinv⟩ hl).mp h0⟩
    · intro ⟨h0, _⟩; exact h0
  · intro i hl hf hi
    show (s.freed || decide (s.occ = not64 (bitMask i))) = true ↔ _
    rw [hf]
    simp only [Bool.false_or, decide_eq_true_eq]
    constructor
    · intro heq
      exact ⟨heq, (sealed_release_free_iff
        ⟨hocc, hhigh, hliveinv, hsealinv, hfreedinv⟩ hl hf hi).mp heq⟩
    · intro ⟨heq, _⟩; exact heq

/-- Witness for C4 at the reachable state following one acquisition from
a fresh `Boxed64`: freed implies no holders, and live implies unfreed. -/
theorem c4_boxed_freed_exactly_once_witness :
    ((box_acquire BoxInit).freed = true →
      ∀ j, (box_acquire BoxInit).holders j = false) ∧
    ((box_acquire BoxInit).live = true → (box_acquire BoxInit).freed = false) :=
  ⟨(c4_boxed_freed_exactly_once _
      (BReach.step BReach.start (BStep.acquireB BoxInit rfl (by decide)))).1,
   (c4_boxed_freed_exactly_once _
      (BReach.step BReach.start (BStep.acquireB BoxInit rfl (by decide)))).2.1⟩

/- ## Arena64: chained slabs (lib.rs / arena.rs) -/

/-- `Arena64::insert` over the chain of slab occupancy words.  The head
of the list is the root arena's own slab; the tail is the chain hanging
off its `next: OnceBox`.  The source tries the current slab's lowest
clear bit; on saturation it recurses into
`self.next.get_or_init(Box::new(…)).insert(value)`, materializing a fresh
(empty) slab at the end of the chain when `next` was uninitialized.
Returns the slab position, the cell index, and the updated chain. -/
def arena_insert : List Nat → Nat × Nat × List Nat
  | [] =>
    (0, trailing_zeros (least_significant_bit 0),
      [0 ||| least_significant_bit 0])
  | occ :: rest =>
    if least_significant_bit occ = 0 then
      ((arena_insert rest).1 + 1, (arena_insert rest).2.1,
        occ :: (arena_insert rest).2.2)
    else
      (0, trailing_zeros (least_significant_bit occ),
        (occ ||| least_significant_bit occ) :: rest)

/-- The positions of the slabs whose occupancy word `Arena64::insert`
loads while walking the chain: the slab it allocates in and every slab
before it. -/
def insert_visits : List Nat → List Nat
  | [] => [0]
  | occ :: rest =>
    if least_significant_bit occ = 0 then
      0 :: (insert_visits rest).map (fun k => k + 1)
    else
      [0]

theorem lsb_zero_val : least_significant_bit 0 = 1 := by decide

/- ## C9: Arena64::insert is total and never surfaces failure -/

/-- C9: `Arena64::insert` always produces a slot: the returned cell index
is below 64; the slab position is at most the chain length (saturation of
every existing slab is converted into appending one fresh slab, never
into an error or absent value); the resulting chain has
`max (length) (position + 1)` slabs; the reserved cell's bit is set in
the resulting chain; and every slab the insertion skipped was
saturated. -/
theorem c9_arena_insert_total (chain : List Nat)
    (hc : ∀ o ∈ chain, o < U64_MOD) :
    (arena_insert chain).2.1 < 64 ∧
    (arena_insert chain).1 ≤ chain.length ∧
    (arena_insert chain).2.2.length =
      max chain.length ((arena_insert chain).1 + 1) ∧
    (∃ o, (arena_insert chain).2.2[(arena_insert chain).1]? = some o ∧
      o.testBit (arena_insert chain).2.1 = true) ∧
    (∀ k, k < (arena_insert chain).1 → chain[k]? = some ALL_ONES) := by
  induction chain with
  | nil =>
    refine ⟨?_, ?_, ?_, ?_, ?_⟩
    · simp [arena_insert, lsb_zero_val, trailing_zeros, tzGo]
    · simp [arena_insert]
    · simp [arena_insert]
    · refine ⟨0 ||| least_significant_bit 0, by simp [arena_insert], ?_⟩
      decide
    · simp [arena_insert]
  | cons occ rest ih =>
    have hocc : occ < U64_MOD := hc occ (by simp)
    have hrest : ∀ o ∈ rest, o < U64_MOD := fun o ho => hc o (by simp [ho])
    rcases Decidable.em (least_significant_bit occ = 0) with hz | hz
    · -- this slab saturated: recurse into the chain
      have hstep : arena_insert (occ :: rest) =
          ((arena_insert rest).1 + 1, (arena_insert rest).2.1,
            occ :: (arena_insert rest).2.2) := by
        simp [arena_insert, hz]
      have hfull : occ = ALL_ONES := (lsb_eq_zero_iff hocc).mp hz
      obtain ⟨ih1, ih2, ih3, ⟨o, iho, ihbit⟩, ih5⟩ := ih hrest
      rw [hstep]
      refine ⟨ih1, ?_, ?_, ?_, ?_⟩
      · simp only [List.length_cons]
        omega
      · simp only [List.length_cons]
        rw [ih3]
        omega
      · exact ⟨o, by simpa using iho, ihbit⟩
      · intro k hk
        cases k with
        | zero => simp [hfull]
        | succ k2 =>
          have hk2 : k2 < (arena_insert rest).1 := by omega
          simpa using ih5 k2 hk2
    · -- this slab has a free cell: allocate here
      have hstep : arena_insert (occ :: rest) =
          (0, trailing_zeros (least_significant_bit occ),
            (occ ||| least_significant_bit occ) :: rest) := by
        simp [arena_insert, hz]
      have hne : occ ≠ ALL_ONES := fun he => hz (by rw [he]; exact lsb_all_ones)
      obtain ⟨i, hi, hbit, hlow⟩ := exists_least_clear hocc hne
      have hlsb := lsb_eq_pow hocc hi hbit hlow
      rw [hstep]
      refine ⟨?_, ?_, ?_, ?_, ?_⟩
      · rw [hlsb, tz_two_pow hi]
        exact hi
      · simp
      · simp
      · refine ⟨occ ||| least_significant_bit occ, by simp, ?_⟩
        rw [hlsb, tz_two_pow hi, testBit_lor_pow]
        simp
      · intro k hk
        simp at hk

/-- Witness for C9 on the chain `[ALL_ONES]` (root slab saturated):
insertion appends a fresh slab at position 1 and reserves its cell 0. -/
theorem c9_arena_insert_total_witness :
    (arena_insert [ALL_ONES]).2.1 < 64 ∧
    (arena_insert [ALL_ONES]).1 ≤ [ALL_ONES].length ∧
    (arena_insert [ALL_ONES]).2.2.length =
      max [ALL_ONES].length ((arena_insert [ALL_ONES]).1 + 1) ∧
    (∃ o, (arena_insert [ALL_ONES]).2.2[(arena_insert [ALL_ONES]).1]? = some o ∧
      o.testBit (arena_insert [ALL_ONES]).2.1 = true) ∧
    (∀ k, k < (arena_insert [ALL_ONES]).1 → [ALL_ONES][k]? = some ALL_ONES) :=
  c9_arena_insert_total [ALL_ONES]
    (by intro o ho; simp at ho; rw [ho]; exact ALL_ONES_lt)

/- ## C1: allocation traverses the chain (corrected) -/

/-- Counterexample to C1 as stated.  With the root slab saturated and a
successor slab already installed (chain `[ALL_ONES, 0]`), an allocation
that ends up in the successor (slab position 1) nevertheless loads the
occupancy word of the earlier slab 0 on its way: the visit trace is
`[0, 1]`, not `[1]`.  Moreover, once a cell of the earlier slab is
released (chain `[clear_bit ALL_ONES 3, 0]`), a later allocation is
placed back into that earlier slab (position 0, cell 3), so earlier slabs
are revisited by later allocations. -/
theorem c1_counterexample :
    insert_visits [ALL_ONES, 0] = [0, 1] ∧
    (arena_insert [ALL_ONES, 0]).1 = 1 ∧
    (arena_insert [clear_bit ALL_ONES 3, 0]).1 = 0 ∧
    (arena_insert [clear_bit ALL_ONES 3, 0]).2.1 = 3 := by
  refine ⟨?_, ?_, ?_, ?_⟩ <;> decide

/-- C1 (amended): `Arena64::insert` walks the chain from the root slab in
order, inspecting every slab up to and including the one it allocates in
(`insert_visits = [0, …, k]` where `k` is the chosen slab position);
earlier slabs, saturated or not, remain on the allocation path and a
freed cell in an earlier slab is reused by later allocations.  (Slab
addresses are stable: installed slabs are never moved or removed from the
chain, which `arena_insert` reflects by only replacing a word or
appending.) -/
theorem zero_cons_map_add_one (n : Nat) :
    0 :: (List.range n).map (fun k => k + 1) = List.range (n + 1) := by
  induction n with
  | zero => rfl
  | succ m ihm =>
    calc 0 :: ((List.range (m + 1)).map (fun k => k + 1))
        = 0 :: ((List.range m).map (fun k => k + 1) ++ [m + 1]) := by
          rw [List.range_succ, List.map_append]
          rfl
      _ = (0 :: (List.range m).map (fun k => k + 1)) ++ [m + 1] := rfl
      _ = List.range (m + 1) ++ [m + 1] := by rw [ihm]
      _ = List.range (m + 1 + 1) := (List.range_succ (m + 1)).symm

theorem c1_insert_traverses_chain (chain : List Nat) :
    insert_visits chain = List.range ((arena_insert chain).1 + 1) := by
  induction chain with
  | nil => decide
  | cons occ rest ih =>
    rcases Decidable.em (least_significant_bit occ = 0) with hz | hz
    · have hstep : (arena_insert (occ :: rest)).1 = (arena_insert rest).1 + 1 := by
        simp [arena_insert, hz]
      have hvis : insert_visits (occ :: rest) =
          0 :: (insert_visits rest).map (fun k => k + 1) := by
        simp [insert_visits, hz]
      rw [hvis, hstep, ih, zero_cons_map_add_one]
    · have hstep : (arena_insert (occ :: rest)).1 = 0 := by
        simp [arena_insert, hz]
      have hvis : insert_visits (occ :: rest) = [0] := by
        simp [insert_visits, hz]
      rw [hvis, hstep]
      decide
